import Mathlib

/-!
Verification development for the braindumpsync extraction-dedup-sync pipeline.

The TypeScript sources are shallowly embedded:
* `src/state.ts`   — `AppState`, `loadState`, `generateTaskHash`, `isTaskProcessed`,
  `markTaskProcessed`, `isFileModified`, `updateFileModifiedTime`, `cleanup`.
* `src/ingest.ts`  — `chunkContent` (line-greedy chunker) and the per-file
  ingestion loop of `ingestFiles`.
* `src/notion.ts`  — `callNotion` (retry policy), `taskExists`, `createTask`.
* `src/runner-hourly.ts` — the orchestrator's control flow, modelled as an
  explicit action trace (`hourlyActions`) over a world of in-memory state plus
  the persisted ledger file.

Strings are modelled with Lean `String`/`List Char`; JavaScript string length
(UTF-16 code units) is modelled as character count, which agrees on the
ASCII/BMP inputs used throughout.  Machine numbers are `Nat` with explicit
`% 2 ^ 32` where 32-bit wrap-around matters (SHA-256).
-/

/-! ## Data model (src/state.ts) -/

/-- `ExtractedTask` from src/state.ts: title, optional due date, optional tags. -/
structure ExtractedTask where
  title : String
  due : Option String
  tags : Option (List String)
deriving Repr, DecidableEq

/-- `TaskWithMeta` from src/state.ts: an extracted task plus identity metadata. -/
structure TaskWithMeta where
  title : String
  due : Option String
  tags : Option (List String)
  hash : String
  filePath : String
  lineIndex : Nat
  extractedAt : String
deriving Repr, DecidableEq

/-- `AppState` from src/state.ts.  The JS `Set` keeps insertion order, so
`processedTasks` is a duplicate-free list in insertion order; the JS object
`lastModifiedTimes` is an association list in insertion order. -/
structure AppState where
  lastRun : Option String
  processedTasks : List String
  lastModifiedTimes : List (String × Nat)
deriving Repr, DecidableEq

/-- The default state produced when nothing can be loaded (src/state.ts lines 63-67). -/
def emptyState : AppState := ⟨none, [], []⟩

/-- Insert into a JS `Set` modelled as an insertion-ordered duplicate-free list:
re-adding an existing element leaves its position unchanged. -/
def addToSet (l : List String) (h : String) : List String :=
  if h ∈ l then l else l ++ [h]

/-- `new Set(array)`: deduplicate keeping first occurrences, in order. -/
def setFromList (l : List String) : List String :=
  l.foldl addToSet []

/-- Look up a key in a JS-object-as-association-list. -/
def lookupAssoc : List (String × Nat) → String → Option Nat
  | [], _ => none
  | (q, v) :: rest, p => if q = p then some v else lookupAssoc rest p

/-- `obj[key] = v` on a JS object: overwrite in place if the key exists
(keeping its position), otherwise append. -/
def setAssoc : List (String × Nat) → String → Nat → List (String × Nat)
  | [], p, m => [(p, m)]
  | (q, v) :: rest, p, m =>
    if q = p then (q, m) :: rest else (q, v) :: setAssoc rest p m

/-- The persisted ledger file as seen by `loadState` (src/state.ts lines 42-68):
either the file is missing, or `JSON.parse` throws on its content, or it parses
to an object whose three fields may each be absent/of the wrong shape
(modelled with `Option`). -/
inductive LedgerFile where
  | missing
  | malformed
  | valid (lastRun : Option String) (processedTasks : Option (List String))
      (lastModifiedTimes : Option (List (String × Nat)))
deriving Repr, DecidableEq

/-- `parsed.lastRun || null`: the empty string is falsy in JS and collapses to null. -/
def jsOrNull : Option String → Option String
  | some s => if s = "" then none else some s
  | none => none

/-- `loadState` (src/state.ts lines 42-68): missing file or parse failure falls
back to the empty default state; otherwise `processedTasks` is rebuilt as a
`Set` when it is an array (else empty) and `lastModifiedTimes` defaults to `{}`. -/
def loadState : LedgerFile → AppState
  | .missing => emptyState
  | .malformed => emptyState
  | .valid lr pt lmt =>
    { lastRun := jsOrNull lr
      processedTasks := (pt.map setFromList).getD []
      lastModifiedTimes := lmt.getD [] }

/-- `saveState` serialization (src/state.ts lines 77-83): the full state is
rewritten as a JSON object with the hash set as an array. -/
def serializeState (s : AppState) : LedgerFile :=
  .valid s.lastRun (some s.processedTasks) (some s.lastModifiedTimes)

/-- `isTaskProcessed` (src/state.ts lines 107-109). -/
def isTaskProcessed (s : AppState) (h : String) : Bool :=
  h ∈ s.processedTasks

/-- `markTaskProcessed` (src/state.ts lines 114-116). -/
def markTaskProcessed (s : AppState) (h : String) : AppState :=
  { s with processedTasks := addToSet s.processedTasks h }

/-- `getLastRun` (src/state.ts lines 153-155). -/
def getLastRun (s : AppState) : Option String := s.lastRun

/-- `getProcessedTaskCount` (src/state.ts lines 168-170). -/
def getProcessedTaskCount (s : AppState) : Nat := s.processedTasks.length

/-- `isFileModified` (src/state.ts lines 121-136).  `curMtime = none` models a
failing `fs.statSync` (conservatively modified).  `if (!lastMtime)` treats both
a missing entry and a stored `0` as "never processed" (JS falsiness). -/
def isFileModified (s : AppState) (p : String) (curMtime : Option Nat) : Bool :=
  match curMtime with
  | none => true
  | some cur =>
    match lookupAssoc s.lastModifiedTimes p with
    | none => true
    | some last => if last = 0 then true else decide (cur > last)

/-- `updateFileModifiedTime` (src/state.ts lines 141-148): records the current
mtime; a failing stat (`none`) is swallowed and the state left unchanged. -/
def updateFileModifiedTime (s : AppState) (p : String) : Option Nat → AppState
  | none => s
  | some m => { s with lastModifiedTimes := setAssoc s.lastModifiedTimes p m }

/-- `Math.floor(maxEntries * 0.8)` (src/state.ts line 180), exact for the
magnitudes involved (in particular the default 10000 ↦ 8000). -/
def keepCount (maxEntries : Nat) : Nat := maxEntries * 4 / 5

/-- `Array.prototype.slice(-n)`: the last `n` elements — except that `-0 === 0`,
so `slice(-0)` returns the whole array. -/
def jsSliceLast (l : List String) (n : Nat) : List String :=
  if n = 0 then l else l.drop (l.length - n)

/-- Milliseconds in the 30-day watermark retention window (src/state.ts line 190). -/
def thirtyDaysMs : Nat := 30 * 24 * 60 * 60 * 1000

/-- `cleanup` (src/state.ts lines 175-212): trims `processedTasks` to the last
`Math.floor(maxEntries * 0.8)` insertions when over the cap, drops watermarks
older than 30 days, and reports whether anything needs saving. -/
def cleanupState (nowMs maxEntries : Nat) (s : AppState) : AppState × Bool :=
  let trim := decide (maxEntries < s.processedTasks.length)
  let tasks := if trim then jsSliceLast s.processedTasks (keepCount maxEntries)
               else s.processedTasks
  let cutoff := nowMs - thirtyDaysMs
  let kept := s.lastModifiedTimes.filter fun e => decide (cutoff ≤ e.2)
  let prune := decide (kept.length ≠ s.lastModifiedTimes.length)
  ({ s with processedTasks := tasks, lastModifiedTimes := kept }, trim || prune)

/-! ## Chunker (src/ingest.ts) -/

/-- `FileChunk` from src/ingest.ts. -/
structure FileChunk where
  filePath : String
  content : List Char
  chunkIndex : Nat
  totalChunks : Nat
deriving Repr, DecidableEq

/-- `maxChunkSize` (src/ingest.ts line 28). -/
def maxChunkSize : Nat := 8000

/-- JS `string.split(sep)` for a single-character separator: the empty string
splits to `[""]`, and separators at the ends produce empty pieces. -/
def splitOnChar (sep : Char) : List Char → List (List Char)
  | [] => [[]]
  | c :: rest =>
    if c = sep then [] :: splitOnChar sep rest
    else
      match splitOnChar sep rest with
      | l :: ls => (c :: l) :: ls
      | [] => [[c]]

/-- Rejoin pieces with a newline between consecutive pieces
(the inverse of `splitOnChar '\n'`). -/
def joinLines : List (List Char) → List Char
  | [] => []
  | [l] => l
  | l :: l' :: ls => l ++ '\n' :: joinLines (l' :: ls)

/-- The loop of `chunkContent` (src/ingest.ts lines 138-156).  State: the lines
still to process, `currentChunk`, `chunkIndex`, and the chunks emitted so far.
JS truthiness: the empty `currentChunk` selects `newChunk = line`, and an empty
`currentChunk` disables the flush branch. -/
def chunkLoop (p : String) :
    List (List Char) → List Char → Nat → List FileChunk →
    List FileChunk × List Char × Nat
  | [], cur, idx, chunks => (chunks, cur, idx)
  | line :: rest, cur, idx, chunks =>
    let newChunk := if cur.isEmpty then line else cur ++ '\n' :: line
    if maxChunkSize < newChunk.length ∧ ¬ cur.isEmpty then
      chunkLoop p rest line (idx + 1) (chunks ++ [⟨p, cur, idx, 0⟩])
    else
      chunkLoop p rest newChunk idx chunks

/-- `chunkContent` (src/ingest.ts lines 123-181): content at most `maxChunkSize`
is a single chunk; otherwise lines are packed greedily, the trailing
`currentChunk` is appended when non-empty, and `totalChunks` is back-filled. -/
def chunkContent (p : String) (content : List Char) : List FileChunk :=
  if content.length ≤ maxChunkSize then
    [⟨p, content, 0, 1⟩]
  else
    let r := chunkLoop p (splitOnChar '\n' content) [] 0 []
    let chunks := if r.2.1.isEmpty then r.1 else r.1 ++ [⟨p, r.2.1, r.2.2, 0⟩]
    chunks.map fun c => { c with totalChunks := chunks.length }

/-! ## Sync client (src/notion.ts) -/

/-- `NotionSyncResult` from src/notion.ts. -/
structure NotionSyncResult where
  success : Bool
  pageId : Option String
  pageUrl : Option String
  error : Option String
deriving Repr, DecidableEq

/-- One `fetch` response as consumed by `callNotion` (src/notion.ts lines
152-192).  `jsonMessage = some m` models an error body that parses as JSON with
message field `m` (an absent field collapses to the empty string, which is
falsy); `jsonMessage = none` models a body that fails to parse, in which case
the raw `bodyText` is used.  `okBody` is the parsed payload of a success. -/
structure HttpResponse where
  ok : Bool
  status : Nat
  jsonMessage : Option String
  bodyText : String
  okBody : String
deriving Repr, DecidableEq

/-- The `errorMessage` computation of `callNotion` (src/notion.ts lines
163-171): the parsed JSON `message` if any, else the raw body text, with
`HTTP <status>` as the fallback for falsy values. -/
def errorMessage (r : HttpResponse) : String :=
  let base := "HTTP " ++ toString r.status
  match r.jsonMessage with
  | some m => if m = "" then base else m
  | none => if r.bodyText = "" then base else r.bodyText

/-- `callNotion` (src/notion.ts lines 143-193), driven by the sequence of
responses the network returns for successive attempts.  Returns the overall
outcome (`.ok` payload or the thrown error string), the number of fetch calls
made, and the backoff delays (in ms) slept between attempts.  A 429 retries
while `attempt <= 3` with `2 ^ attempt * 1000` ms; a 5xx retries while
`attempt <= 2` with `attempt * 2000` ms; anything else throws.  An exhausted
response list models the fetch call itself rejecting (not used by theorems). -/
def callNotion : List HttpResponse → Nat → Except String String × Nat × List Nat
  | [], _ => (.error "fetch failed", 0, [])
  | r :: rest, attempt =>
    if r.ok then (.ok r.okBody, 1, [])
    else if r.status = 429 ∧ attempt ≤ 3 then
      let t := callNotion rest (attempt + 1)
      (t.1, t.2.1 + 1, 2 ^ attempt * 1000 :: t.2.2)
    else if 500 ≤ r.status ∧ attempt ≤ 2 then
      let t := callNotion rest (attempt + 1)
      (t.1, t.2.1 + 1, attempt * 2000 :: t.2.2)
    else
      (.error ("Notion API error: " ++ errorMessage r), 1, [])

/-- The record store as seen through `callNotion` by one logical operation:
the outcome (after any retries) of the existence query for a hash, and of a
page creation.  `.error` is the string thrown by `callNotion`; the query's
`.ok` payload is the `results` list (page ids), creation's is `(id, url)`. -/
structure StoreOracle where
  queryOutcome : String → String → Except String (List String)
  createOutcome : String → TaskWithMeta → Except String (String × String)

/-- The logical requests `createTask` can issue against the store. -/
inductive NotionRequest where
  | query (databaseId taskHash : String)
  | createPage (databaseId : String) (task : TaskWithMeta)
deriving Repr, DecidableEq

/-- `taskExists` (src/notion.ts lines 198-224): true iff the equality query on
the `Task ID` field returns a non-empty results list; any error is caught and
reported as `false` ("assuming it doesn't" exist). -/
def taskExists (store : StoreOracle) (databaseId taskHash : String) : Bool :=
  match store.queryOutcome databaseId taskHash with
  | .ok results => ¬ results.isEmpty
  | .error _ => false

/-- `createTask` (src/notion.ts lines 229-287): checks existence first; if the
task exists, succeeds with the `"existing"` sentinel and issues no create
request; otherwise issues the create and reports its outcome, catching any
thrown error as `success = false`.  The second component records the logical
requests sent to the store, in order. -/
def createTask (store : StoreOracle) (databaseId : String) (task : TaskWithMeta) :
    NotionSyncResult × List NotionRequest :=
  if taskExists store databaseId task.hash then
    (⟨true, some "existing", some "existing", none⟩, [.query databaseId task.hash])
  else
    match store.createOutcome databaseId task with
    | .ok (id, url) =>
      (⟨true, some id, some url, none⟩,
        [.query databaseId task.hash, .createPage databaseId task])
    | .error e =>
      (⟨false, none, none, some e⟩,
        [.query databaseId task.hash, .createPage databaseId task])

/-- Count of create requests in a request trace. -/
def countCreates (reqs : List NotionRequest) : Nat :=
  (reqs.filter fun r => match r with | .createPage _ _ => true | _ => false).length

/-! ## Task identity hash (src/state.ts `generateTaskHash`)

`generateTaskHash` lowercases and trims the title, resolves the file path,
serializes `(title, filePath, lineIndex)` with `JSON.stringify`, and takes the
first 16 hex characters of the SHA-256 digest.  SHA-256 is implemented below
over `Nat` with explicit `% 2 ^ 32` wrap-around; `path.resolve` consults the
process working directory, modelled as an explicit `cwd` parameter. -/

/-- The whitespace characters stripped by JS `String.prototype.trim`
(ASCII whitespace plus NBSP and BOM, the cases arising in practice). -/
def isJsWhitespace (c : Char) : Bool :=
  c = ' ' ∨ c = '\t' ∨ c = '\n' ∨ c = '\x0b' ∨ c = '\x0c' ∨ c = '\r' ∨
    c = ' ' ∨ c = '﻿'

/-- JS `trim()`: drop leading and trailing whitespace. -/
def jsTrim (s : String) : String :=
  ⟨((s.data.dropWhile isJsWhitespace).reverse.dropWhile isJsWhitespace).reverse⟩

/-- JS `toLowerCase()` restricted to ASCII letters (all that occurs here). -/
def jsToLower (s : String) : String :=
  ⟨s.data.map fun c => if 'A' ≤ c ∧ c ≤ 'Z' then Char.ofNat (c.toNat + 32) else c⟩

/-- Lowercase hex digit for a value below 16. -/
def hexDigit (n : Nat) : Char :=
  if n < 10 then Char.ofNat (48 + n) else Char.ofNat (87 + n)

/-- Two lowercase hex digits of a byte. -/
def byteToHex (b : Nat) : List Char := [hexDigit (b / 16), hexDigit (b % 16)]

/-- `JSON.stringify` escaping of a single character. -/
def jsonEscapeChar (c : Char) : List Char :=
  if c = '"' then ['\\', '"']
  else if c = '\\' then ['\\', '\\']
  else if c = '\x08' then ['\\', 'b']
  else if c = '\t' then ['\\', 't']
  else if c = '\n' then ['\\', 'n']
  else if c = '\x0c' then ['\\', 'f']
  else if c = '\r' then ['\\', 'r']
  else if c.toNat < 32 then '\\' :: 'u' :: '0' :: '0' :: byteToHex c.toNat
  else [c]

/-- `JSON.stringify` of a string value. -/
def jsonQuote (s : String) : String :=
  ⟨'"' :: (s.data.flatMap jsonEscapeChar ++ ['"'])⟩

/-- Drop empty and `.` segments and apply `..`, as Node path normalization does. -/
def normSegs (segs : List (List Char)) : List (List Char) :=
  segs.foldl
    (fun acc seg =>
      if seg = [] ∨ seg = ['.'] then acc
      else if seg = ['.', '.'] then acc.dropLast
      else acc ++ [seg])
    []

/-- Modelled from Node `path.resolve(filePath)` at an explicit absolute working
directory `cwd`: absolute paths are normalized, relative ones are joined to
`cwd` first.  (Node stdlib, not repository code; the hash theorems do not
depend on its internals.) -/
def resolvePath (cwd p : String) : String :=
  let full := if p.data.head? = some '/' then p.data else cwd.data ++ '/' :: p.data
  ⟨'/' :: List.intercalate ['/'] (normSegs (splitOnChar '/' full))⟩

/-- UTF-8 encoding of one code point. -/
def utf8Char (c : Char) : List Nat :=
  let n := c.toNat
  if n < 128 then [n]
  else if n < 2048 then [192 + n / 64, 128 + n % 64]
  else if n < 65536 then [224 + n / 4096, 128 + (n / 64) % 64, 128 + n % 64]
  else [240 + n / 262144, 128 + (n / 4096) % 64, 128 + (n / 64) % 64, 128 + n % 64]

/-- UTF-8 bytes of a string (what `crypto.createHash(...).update(string)` hashes). -/
def utf8Encode (s : String) : List Nat := s.data.flatMap utf8Char

/-- Truncate to 32 bits. -/
def w32 (n : Nat) : Nat := n % 4294967296

/-- 32-bit right rotation. -/
def rotr (n x : Nat) : Nat := w32 ((x >>> n) ||| (x <<< (32 - n)))

/-- SHA-256 round constants (FIPS 180-4). -/
def sha256k : List Nat :=
  [0x428A2F98, 0x71374491, 0xB5C0FBCF, 0xE9B5DBA5, 0x3956C25B, 0x59F111F1,
   0x923F82A4, 0xAB1C5ED5, 0xD807AA98, 0x12835B01, 0x243185BE, 0x550C7DC3,
   0x72BE5D74, 0x80DEB1FE, 0x9BDC06A7, 0xC19BF174, 0xE49B69C1, 0xEFBE4786,
   0x0FC19DC6, 0x240CA1CC, 0x2DE92C6F, 0x4A7484AA, 0x5CB0A9DC, 0x76F988DA,
   0x983E5152, 0xA831C66D, 0xB00327C8, 0xBF597FC7, 0xC6E00BF3, 0xD5A79147,
   0x06CA6351, 0x14292967, 0x27B70A85, 0x2E1B2138, 0x4D2C6DFC, 0x53380D13,
   0x650A7354, 0x766A0ABB, 0x81C2C92E, 0x92722C85, 0xA2BFE8A1, 0xA81A664B,
   0xC24B8B70, 0xC76C51A3, 0xD192E819, 0xD6990624, 0xF40E3585, 0x106AA070,
   0x19A4C116, 0x1E376C08, 0x2748774C, 0x34B0BCB5, 0x391C0CB3, 0x4ED8AA4A,
   0x5B9CCA4F, 0x682E6FF3, 0x748F82EE, 0x78A5636F, 0x84C87814, 0x8CC70208,
   0x90BEFFFA, 0xA4506CEB, 0xBEF9A3F7, 0xC67178F2]

/-- SHA-256 initial hash values (FIPS 180-4). -/
def sha256h0 : List Nat :=
  [0x6A09E667, 0xBB67AE85, 0x3C6EF372, 0xA54FF53A,
   0x510E527F, 0x9B05688C, 0x1F83D9AB, 0x5BE0CD19]

/-- Big-endian bytes of a 64-bit value. -/
def be64 (n : Nat) : List Nat :=
  [n >>> 56 &&& 255, n >>> 48 &&& 255, n >>> 40 &&& 255, n >>> 32 &&& 255,
   n >>> 24 &&& 255, n >>> 16 &&& 255, n >>> 8 &&& 255, n &&& 255]

/-- Big-endian bytes of a 32-bit value. -/
def be32 (n : Nat) : List Nat :=
  [n >>> 24 &&& 255, n >>> 16 &&& 255, n >>> 8 &&& 255, n &&& 255]

/-- Group bytes into big-endian 32-bit words. -/
def toWords : List Nat → List Nat
  | b0 :: b1 :: b2 :: b3 :: rest => (((b0 * 256 + b1) * 256 + b2) * 256 + b3) :: toWords rest
  | _ => []

/-- Split a (padded) byte string into 64-byte blocks. -/
def toBlocks (l : List Nat) : List (List Nat) :=
  if h : l = [] then []
  else
    l.take 64 :: toBlocks (l.drop 64)
termination_by l.length
decreasing_by
  have : 0 < l.length := List.length_pos.mpr h
  simp only [List.length_drop]
  omega

/-- Extend a 16-word block to the 64-word message schedule (`fuel` = 48 steps). -/
def extendSchedule : Nat → List Nat → List Nat
  | 0, ws => ws
  | n + 1, ws =>
    let len := ws.length
    let w15 := ws.getD (len - 15) 0
    let w2 := ws.getD (len - 2) 0
    let s0 := rotr 7 w15 ^^^ rotr 18 w15 ^^^ (w15 >>> 3)
    let s1 := rotr 17 w2 ^^^ rotr 19 w2 ^^^ (w2 >>> 10)
    extendSchedule n (ws ++ [w32 (ws.getD (len - 16) 0 + s0 + ws.getD (len - 7) 0 + s1)])

/-- One SHA-256 compression round on the 8-word working state. -/
def roundStep (st : List Nat) (kw : Nat × Nat) : List Nat :=
  match st with
  | [a, b, c, d, e, f, g, h] =>
    let s1 := rotr 6 e ^^^ rotr 11 e ^^^ rotr 25 e
    let ch := (e &&& f) ^^^ ((e ^^^ 4294967295) &&& g)
    let temp1 := w32 (h + s1 + ch + kw.1 + kw.2)
    let s0 := rotr 2 a ^^^ rotr 13 a ^^^ rotr 22 a
    let maj := (a &&& b) ^^^ (a &&& c) ^^^ (b &&& c)
    let temp2 := w32 (s0 + maj)
    [w32 (temp1 + temp2), a, b, c, w32 (d + temp1), e, f, g]
  | other => other

/-- Compress one 64-byte block into the running hash. -/
def compressBlock (hs : List Nat) (block : List Nat) : List Nat :=
  let ws := extendSchedule 48 (toWords block)
  let st := (sha256k.zip ws).foldl roundStep hs
  (hs.zip st).map fun pq => w32 (pq.1 + pq.2)

/-- SHA-256 of a byte string, as 32 bytes. -/
def sha256 (msg : List Nat) : List Nat :=
  let L := msg.length
  let padded := msg ++ 128 :: (List.replicate ((119 - L % 64) % 64) 0 ++ be64 (8 * L))
  ((toBlocks padded).foldl compressBlock sha256h0).flatMap be32

/-- Lowercase hex digest, as `crypto`'s `digest("hex")`. -/
def sha256hex (msg : List Nat) : String :=
  ⟨(sha256 msg).flatMap byteToHex⟩

/-- The `JSON.stringify({title, filePath, lineIndex})` input of
`generateTaskHash` (src/state.ts lines 95-99). -/
def hashInput (cwd : String) (task : ExtractedTask) (filePath : String)
    (lineIndex : Nat) : String :=
  "\x7b\"title\":" ++ jsonQuote (jsToLower (jsTrim task.title)) ++
    ",\"filePath\":" ++ jsonQuote (resolvePath cwd filePath) ++
    ",\"lineIndex\":" ++ toString lineIndex ++ "\x7d"

/-- `generateTaskHash` (src/state.ts lines 94-102): first 16 hex characters of
the SHA-256 of the serialized normalized identity. -/
def generateTaskHash (cwd : String) (task : ExtractedTask) (filePath : String)
    (lineIndex : Nat) : String :=
  (sha256hex (utf8Encode (hashInput cwd task filePath lineIndex))).take 16

/-! ## Orchestrator (src/runner-hourly.ts and src/ingest.ts `ingestFiles`)

The hourly run is modelled as an explicit trace of elementary actions over a
`World` of in-memory state plus the persisted ledger.  A crash at any point is
a prefix of the trace; only `save`-performing actions touch the ledger file.
The extraction/hashing pipeline between `extract` and `sync` is abstracted as
the resulting list of `(hash, sync succeeded)` pairs — its details do not
affect which actions touch the disk. -/

/-- A modified file as returned by `readFiles` (src/ingest.ts lines 81-118). -/
structure FileContent where
  filePath : String
  content : List Char
  modifiedTime : Nat
deriving Repr, DecidableEq

/-- In-memory state plus the persisted ledger file. -/
structure World where
  mem : AppState
  disk : LedgerFile
deriving Repr, DecidableEq

/-- Elementary effects of an hourly run, in execution order. -/
inductive RunAction where
  /-- a file's chunk is appended to the `allChunks` hand-off list
  (src/ingest.ts line 211) -/
  | handOff (chunk : FileChunk)
  /-- `stateManager.updateFileModifiedTime` (src/ingest.ts line 214) -/
  | updWatermark (p : String) (mtime : Nat)
  /-- the call to `taskExtractor.extractTasksFromChunks` (src/runner-hourly.ts line 63) -/
  | extract
  /-- the call to `notionClient.syncTasks` (src/runner-hourly.ts line 105) -/
  | sync
  /-- `stateManager.markTaskProcessed` (src/runner-hourly.ts line 118) -/
  | mark (h : String)
  /-- `stateManager.cleanup()` (src/runner-hourly.ts line 124) -/
  | cleanup (nowMs : Nat)
  /-- `stateManager.updateLastRun()`, which saves (src/runner-hourly.ts lines 57/99/127) -/
  | updateLastRun (nowIso : String)
deriving Repr, DecidableEq

/-- Effect of one action on the world.  Only `cleanup` (when something changed)
and `updateLastRun` write the ledger file. -/
def applyRunAction (w : World) : RunAction → World
  | .handOff _ => w
  | .extract => w
  | .sync => w
  | .updWatermark p m => { w with mem := updateFileModifiedTime w.mem p (some m) }
  | .mark h => { w with mem := markTaskProcessed w.mem h }
  | .cleanup nowMs =>
    let r := cleanupState nowMs 10000 w.mem
    { mem := r.1, disk := if r.2 then serializeState r.1 else w.disk }
  | .updateLastRun nowIso =>
    let s := { w.mem with lastRun := some nowIso }
    { mem := s, disk := serializeState s }

/-- Execute a trace. -/
def runWorld (w : World) (acts : List RunAction) : World := acts.foldl applyRunAction w

/-- The per-file loop of `ingestFiles` (src/ingest.ts lines 209-215): each
file's chunks are handed off, then its watermark is advanced. -/
def ingestRunActions (files : List FileContent) : List RunAction :=
  files.flatMap fun f =>
    (chunkContent f.filePath f.content).map RunAction.handOff ++
      [RunAction.updWatermark f.filePath f.modifiedTime]

/-- The combined hand-off list of a run (`allChunks` in src/ingest.ts). -/
def allChunks (files : List FileContent) : List FileChunk :=
  files.flatMap fun f => chunkContent f.filePath f.content

/-- The action trace of one hourly run (src/runner-hourly.ts lines 52-127)
after successful health checks.  `newTasks` abstracts the deduplicated
extraction output forwarded to the sync client, as `(hash, sync succeeded)`
pairs in order. -/
def hourlyRunActions (files : List FileContent) (newTasks : List (String × Bool))
    (nowIso : String) (nowMs : Nat) : List RunAction :=
  ingestRunActions files ++
    if (allChunks files).isEmpty then [RunAction.updateLastRun nowIso]
    else
      RunAction.extract ::
        if newTasks.isEmpty then [RunAction.updateLastRun nowIso]
        else
          RunAction.sync ::
            ((newTasks.filterMap fun tr =>
                if tr.2 then some (RunAction.mark tr.1) else none) ++
              [RunAction.cleanup nowMs, RunAction.updateLastRun nowIso])

/-- The mark-successful-tasks loop of the orchestrator (src/runner-hourly.ts
lines 111-121), over the position-wise pairs of forwarded tasks and their sync
results: marks the task processed exactly when its result has `success = true`.
Also returns the arguments of the `markTaskProcessed` calls, in call order. -/
def markSyncedLoop (s : AppState) :
    List (TaskWithMeta × NotionSyncResult) → AppState × List String
  | [] => (s, [])
  | (t, r) :: rest =>
    if r.success then
      let out := markSyncedLoop (markTaskProcessed s t.hash) rest
      (out.1, t.hash :: out.2)
    else
      markSyncedLoop s rest

/-- The orchestrator pairs `allTasks[i]` with `syncResults[i]`
(src/runner-hourly.ts lines 113-115). -/
def markSynced (s : AppState) (tasks : List TaskWithMeta)
    (results : List NotionSyncResult) : AppState × List String :=
  markSyncedLoop s (tasks.zip results)

/-- Whether an action writes the persisted ledger file: only `cleanup` (when
something changed) and `updateLastRun` do. -/
def writesDisk : RunAction → Bool
  | .cleanup _ => true
  | .updateLastRun _ => true
  | _ => false

/-! ## Chunker lemmas -/

theorem splitOnChar_ne_nil (sep : Char) (l : List Char) : splitOnChar sep l ≠ [] := by
  induction l with
  | nil => simp [splitOnChar]
  | cons c rest ih =>
    simp only [splitOnChar]
    split
    · simp
    · cases h : splitOnChar sep rest with
      | nil => exact absurd h ih
      | cons a as => simp

theorem joinLines_cons (x : List Char) (L : List (List Char)) (h : L ≠ []) :
    joinLines (x :: L) = x ++ '\n' :: joinLines L := by
  cases L with
  | nil => exact absurd rfl h
  | cons y ys => rfl

theorem joinLines_splitOnChar (l : List Char) :
    joinLines (splitOnChar '\n' l) = l := by
  induction l with
  | nil => rfl
  | cons c rest ih =>
    simp only [splitOnChar]
    split
    · next hc =>
      rw [joinLines_cons _ _ (splitOnChar_ne_nil _ _), ih, hc]
      simp
    · cases h : splitOnChar '\n' rest with
      | nil => exact absurd h (splitOnChar_ne_nil _ _)
      | cons a as =>
        rw [h] at ih
        cases as with
        | nil => simpa [joinLines] using congrArg (c :: ·) ih
        | cons b bs => simpa [joinLines] using congrArg (c :: ·) ih

theorem joinLines_glue (a b : List Char) (ys : List (List Char)) :
    joinLines ((a ++ '\n' :: b) :: ys) = joinLines (a :: b :: ys) := by
  cases ys with
  | nil => simp [joinLines]
  | cons y ys' =>
    rw [joinLines_cons _ _ (by simp), joinLines_cons a _ (by simp),
      joinLines_cons b _ (by simp)]
    simp

theorem joinLines_glue_middle (xs : List (List Char)) (a b : List Char)
    (ys : List (List Char)) :
    joinLines (xs ++ (a ++ '\n' :: b) :: ys) = joinLines (xs ++ a :: b :: ys) := by
  induction xs with
  | nil => exact joinLines_glue a b ys
  | cons x xs' ih =>
    rw [List.cons_append, List.cons_append,
      joinLines_cons _ _ (by simp), joinLines_cons _ _ (by simp), ih]

theorem chunkLoop_join (p : String) (lines : List (List Char)) :
    ∀ cur idx chunks, (∀ l ∈ lines, l ≠ []) → cur ≠ [] →
    (chunkLoop p lines cur idx chunks).2.1 ≠ [] ∧
    joinLines ((chunkLoop p lines cur idx chunks).1.map (fun c => c.content) ++
        [(chunkLoop p lines cur idx chunks).2.1]) =
      joinLines (chunks.map (fun c => c.content) ++ cur :: lines) := by
  induction lines with
  | nil =>
    intro cur idx chunks _ hcur
    exact ⟨hcur, by simp [chunkLoop]⟩
  | cons line rest ih =>
    intro cur idx chunks hall hcur
    have hline : line ≠ [] := hall line (List.mem_cons_self _ _)
    have hrest : ∀ l ∈ rest, l ≠ [] := fun l hl => hall l (List.mem_cons_of_mem _ hl)
    have hcurE : cur.isEmpty = false := by simpa using hcur
    simp only [chunkLoop, hcurE, Bool.false_eq_true, if_false]
    split
    · obtain ⟨h1, h2⟩ := ih line (idx + 1) (chunks ++ [⟨p, cur, idx, 0⟩]) hrest hline
      refine ⟨h1, ?_⟩
      rw [h2]
      simp
    · obtain ⟨h1, h2⟩ := ih (cur ++ '\n' :: line) idx chunks hrest (by simp)
      refine ⟨h1, ?_⟩
      rw [h2, joinLines_glue_middle]

theorem chunkLoop_prefix (p : String) (lines : List (List Char)) :
    ∀ cur idx chunks, ∃ extra, (chunkLoop p lines cur idx chunks).1 = chunks ++ extra := by
  induction lines with
  | nil => intro cur idx chunks; exact ⟨[], by simp [chunkLoop]⟩
  | cons line rest ih =>
    intro cur idx chunks
    simp only [chunkLoop]
    split <;> split
    · obtain ⟨e, he⟩ := ih line (idx + 1) (chunks ++ [⟨p, cur, idx, 0⟩])
      exact ⟨⟨p, cur, idx, 0⟩ :: e, by simp [he]⟩
    · exact ih _ idx chunks
    · obtain ⟨e, he⟩ := ih line (idx + 1) (chunks ++ [⟨p, cur, idx, 0⟩])
      exact ⟨⟨p, cur, idx, 0⟩ :: e, by simp [he]⟩
    · exact ih _ idx chunks

theorem chunkLoop_nopush (p : String) (lines : List (List Char)) :
    ∀ cur idx chunks, lines ≠ [] → cur ≠ [] →
    (chunkLoop p lines cur idx chunks).1 = chunks →
    (chunkLoop p lines cur idx chunks).2.1 = joinLines (cur :: lines) ∧
    (chunkLoop p lines cur idx chunks).2.1.length ≤ maxChunkSize := by
  induction lines with
  | nil => intro _ _ _ h; exact absurd rfl h
  | cons line rest ih =>
    intro cur idx chunks _ hcur
    have hcurE : cur.isEmpty = false := by simpa using hcur
    simp only [chunkLoop, hcurE, Bool.false_eq_true, if_false]
    split
    · next hc =>
      intro hchunks
      obtain ⟨e, he⟩ := chunkLoop_prefix p rest line (idx + 1) (chunks ++ [⟨p, cur, idx, 0⟩])
      rw [he] at hchunks
      exfalso
      have := congrArg List.length hchunks
      simp at this
    · next hc =>
      intro hchunks
      have hlen : ¬ maxChunkSize < (cur ++ '\n' :: line).length := by
        intro hlt
        exact hc ⟨hlt, by simp [hcurE]⟩
      cases rest with
      | nil =>
        refine ⟨by simp [chunkLoop, joinLines], ?_⟩
        simp only [chunkLoop]
        omega
      | cons l2 rest2 =>
        have hres := ih (cur ++ '\n' :: line) idx chunks (by simp) (by simp) hchunks
        exact ⟨by rw [hres.1, joinLines_glue], hres.2⟩

theorem chunkLoop_idx (p : String) (lines : List (List Char)) :
    ∀ cur idx chunks,
    chunks.map (fun c => c.chunkIndex) = List.range chunks.length →
    idx = chunks.length →
    (chunkLoop p lines cur idx chunks).1.map (fun c => c.chunkIndex) =
      List.range (chunkLoop p lines cur idx chunks).1.length ∧
    (chunkLoop p lines cur idx chunks).2.2 = (chunkLoop p lines cur idx chunks).1.length := by
  induction lines with
  | nil =>
    intro cur idx chunks h1 h2
    exact ⟨by simpa [chunkLoop] using h1, by simp [chunkLoop, h2]⟩
  | cons line rest ih =>
    intro cur idx chunks h1 h2
    simp only [chunkLoop]
    split <;> split
    · exact ih _ _ _ (by simp [h1, h2, List.range_succ]) (by simp [h2])
    · exact ih _ _ _ h1 h2
    · exact ih _ _ _ (by simp [h1, h2, List.range_succ]) (by simp [h2])
    · exact ih _ _ _ h1 h2

theorem chunkLoop_paths (p : String) (lines : List (List Char)) :
    ∀ cur idx chunks, (∀ c ∈ chunks, c.filePath = p) →
    ∀ c ∈ (chunkLoop p lines cur idx chunks).1, c.filePath = p := by
  induction lines with
  | nil => intro cur idx chunks h; simpa [chunkLoop] using h
  | cons line rest ih =>
    intro cur idx chunks h
    simp only [chunkLoop]
    split <;> split
    · refine ih _ _ _ ?_
      intro c hc
      rcases List.mem_append.mp hc with h' | h'
      · exact h c h'
      · simp only [List.mem_singleton] at h'
        subst h'
        rfl
    · exact ih _ _ _ h
    · refine ih _ _ _ ?_
      intro c hc
      rcases List.mem_append.mp hc with h' | h'
      · exact h c h'
      · simp only [List.mem_singleton] at h'
        subst h'
        rfl
    · exact ih _ _ _ h

theorem chunkContent_paths (p : String) (content : List Char) :
    ∀ c ∈ chunkContent p content, c.filePath = p := by
  intro c hc
  simp only [chunkContent] at hc
  split at hc
  · simp only [List.mem_singleton] at hc
    subst hc
    rfl
  · simp only [List.mem_map] at hc
    obtain ⟨c0, hc0, hec⟩ := hc
    have h0 : c0.filePath = p := by
      split at hc0
      · exact chunkLoop_paths p _ _ _ _ (by simp) c0 hc0
      · rcases List.mem_append.mp hc0 with h' | h'
        · exact chunkLoop_paths p _ _ _ _ (by simp) c0 h'
        · simp only [List.mem_singleton] at h'
          subst h'
          rfl
    rw [← hec]
    exact h0

theorem splitOnChar_noSep (sep : Char) (l : List Char) (h : sep ∉ l) :
    splitOnChar sep l = [l] := by
  induction l with
  | nil => rfl
  | cons c rest ih =>
    have hc : ¬ c = sep := fun he => h (he ▸ List.mem_cons_self _ _)
    have hrest : sep ∉ rest := fun hm => h (List.mem_cons_of_mem _ hm)
    simp only [splitOnChar, if_neg hc, ih hrest]

theorem splitOnChar_sep_cons (sep : Char) (l : List Char) :
    splitOnChar sep (sep :: l) = [] :: splitOnChar sep l := by
  simp [splitOnChar]

theorem splitOnChar_append_sep (sep : Char) (l1 l2 : List Char) (h : sep ∉ l1) :
    splitOnChar sep (l1 ++ sep :: l2) = l1 :: splitOnChar sep l2 := by
  induction l1 with
  | nil => simp [splitOnChar_sep_cons]
  | cons c rest ih =>
    have hc : ¬ c = sep := fun he => h (he ▸ List.mem_cons_self _ _)
    have hrest : sep ∉ rest := fun hm => h (List.mem_cons_of_mem _ hm)
    rw [List.cons_append]
    simp only [splitOnChar, if_neg hc, ih hrest]

theorem splitOnChar_replicate_self (n : Nat) :
    splitOnChar '\n' (List.replicate n '\n') = List.replicate (n + 1) [] := by
  induction n with
  | zero => rfl
  | succ m ih =>
    rw [List.replicate_succ, splitOnChar_sep_cons, ih]
    rfl

theorem chunkLoop_empty_lines (p : String) (m : Nat) :
    ∀ idx chunks, chunkLoop p (List.replicate m []) [] idx chunks = (chunks, [], idx) := by
  induction m with
  | zero => intro idx chunks; rfl
  | succ k ih =>
    intro idx chunks
    rw [List.replicate_succ]
    simp only [chunkLoop, List.isEmpty_nil, if_true, List.length_nil]
    rw [if_neg (by simp [maxChunkSize])]
    exact ih idx chunks

theorem chunkContent_all_newlines (p : String) :
    chunkContent p (List.replicate 8001 '\n') = [] := by
  rw [chunkContent]
  rw [if_neg (by rw [List.length_replicate] ; decide)]
  simp only [splitOnChar_replicate_self, chunkLoop_empty_lines]
  simp


/-- C9: chunking a document whose content length is at most `maxChunkSize`
returns exactly one chunk equal to the original content, with `chunkIndex = 0`
and `totalChunks = 1`. -/
theorem chunkContent_small (p : String) (content : List Char)
    (h : content.length ≤ maxChunkSize) :
    chunkContent p content = [⟨p, content, 0, 1⟩] := by
  simp [chunkContent, h]

/-- Witness for `chunkContent_small` at a concrete two-character document. -/
theorem chunkContent_small_witness :
    (['h', 'i'] : List Char).length ≤ maxChunkSize ∧
    chunkContent "f" ['h', 'i'] = [⟨"f", ['h', 'i'], 0, 1⟩] :=
  ⟨by decide, chunkContent_small "f" ['h', 'i'] (by decide)⟩

/-- Closed form of `chunkContent` on oversized content: the loop runs seeded
with the first line, the trailing chunk is appended, and `totalChunks` is
back-filled over the lot. -/
theorem chunkContent_large_eq (p : String) (content l0 : List Char)
    (rest : List (List Char)) (hlen : maxChunkSize < content.length)
    (hsplit : splitOnChar '\n' content = l0 :: rest)
    (hEmp : (chunkLoop p rest l0 0 []).2.1.isEmpty = false) :
    chunkContent p content =
      ((chunkLoop p rest l0 0 []).1 ++
          [FileChunk.mk p (chunkLoop p rest l0 0 []).2.1 (chunkLoop p rest l0 0 []).2.2 0]).map
        (fun c => FileChunk.mk c.filePath c.content c.chunkIndex
          ((chunkLoop p rest l0 0 []).1.length + 1)) := by
  have hstep : chunkLoop p (l0 :: rest) [] 0 [] = chunkLoop p rest l0 0 [] := by
    simp only [chunkLoop, List.isEmpty_nil, if_true]
    rw [if_neg (by simp)]
  simp only [chunkContent, if_neg (not_le.mpr hlen), hsplit, hstep, hEmp,
    Bool.false_eq_true, if_false]
  simp

/-- C3 (amended): for a document whose content exceeds `maxChunkSize`, has at
least two lines, and has no empty line, chunking yields at least two chunks
whose contents rejoined with newlines reconstruct the source (so no line is
truncated or dropped), every chunk's `totalChunks` equals the chunk count, and
chunk indices are contiguous from 0.  Documents with empty lines are excluded:
the loop's JS truthiness test drops an empty line landing at a chunk start
(see `chunkContent_leading_empty_line`). -/
theorem chunkContent_large (p : String) (content : List Char)
    (hlen : maxChunkSize < content.length)
    (hne : ∀ l ∈ splitOnChar '\n' content, l ≠ [])
    (h2 : 2 ≤ (splitOnChar '\n' content).length) :
    2 ≤ (chunkContent p content).length ∧
    joinLines ((chunkContent p content).map (fun c => c.content)) = content ∧
    (∀ c ∈ chunkContent p content, c.totalChunks = (chunkContent p content).length) ∧
    (chunkContent p content).map (fun c => c.chunkIndex) =
      List.range (chunkContent p content).length := by
  cases hsplit : splitOnChar '\n' content with
  | nil => exact absurd hsplit (splitOnChar_ne_nil _ _)
  | cons l0 rest =>
    cases rest with
    | nil => rw [hsplit] at h2; simp at h2
    | cons l1 rest2 =>
      have hl0 : l0 ≠ [] := hne l0 (by rw [hsplit]; exact List.mem_cons_self _ _)
      have hrest : ∀ l ∈ l1 :: rest2, l ≠ [] := fun l hl =>
        hne l (by rw [hsplit]; exact List.mem_cons_of_mem _ hl)
      have hj : joinLines (l0 :: l1 :: rest2) = content := by
        rw [← hsplit, joinLines_splitOnChar]
      have hjoin := chunkLoop_join p (l1 :: rest2) l0 0 [] hrest hl0
      have hidx := chunkLoop_idx p (l1 :: rest2) l0 0 [] (by simp) (by simp)
      have hcontent : joinLines ((chunkLoop p (l1 :: rest2) l0 0 []).1.map
          (fun c => c.content) ++ [(chunkLoop p (l1 :: rest2) l0 0 []).2.1]) = content := by
        rw [hjoin.2]
        simpa using hj
      have hflushed : (chunkLoop p (l1 :: rest2) l0 0 []).1 ≠ [] := by
        intro hnil
        have hnp := chunkLoop_nopush p (l1 :: rest2) l0 0 [] (by simp) hl0 (by simpa using hnil)
        have hle := hnp.2
        rw [hnp.1, hj] at hle
        omega
      have hEmp : (chunkLoop p (l1 :: rest2) l0 0 []).2.1.isEmpty = false := by
        simpa using hjoin.1
      have hcc := chunkContent_large_eq p content l0 (l1 :: rest2) hlen hsplit hEmp
      have hlenpos : 1 ≤ (chunkLoop p (l1 :: rest2) l0 0 []).1.length :=
        Nat.one_le_iff_ne_zero.mpr (by simpa using hflushed)
      rw [hcc]
      refine ⟨?_, ?_, ?_, ?_⟩
      · simp only [List.length_map, List.length_append, List.length_singleton]
        omega
      · rw [List.map_map]
        have : ((chunkLoop p (l1 :: rest2) l0 0 []).1 ++
              [FileChunk.mk p (chunkLoop p (l1 :: rest2) l0 0 []).2.1
                (chunkLoop p (l1 :: rest2) l0 0 []).2.2 0]).map
              ((fun c => c.content) ∘ (fun c => FileChunk.mk c.filePath c.content c.chunkIndex
                ((chunkLoop p (l1 :: rest2) l0 0 []).1.length + 1))) =
            (chunkLoop p (l1 :: rest2) l0 0 []).1.map (fun c => c.content) ++
              [(chunkLoop p (l1 :: rest2) l0 0 []).2.1] := by
          simp
        rw [this, hcontent]
      · intro c hc
        simp only [List.mem_map] at hc
        obtain ⟨c0, hc0, hec⟩ := hc
        rw [← hec]
        simp
      · rw [List.map_map]
        have : ((chunkLoop p (l1 :: rest2) l0 0 []).1 ++
              [FileChunk.mk p (chunkLoop p (l1 :: rest2) l0 0 []).2.1
                (chunkLoop p (l1 :: rest2) l0 0 []).2.2 0]).map
              ((fun c => c.chunkIndex) ∘ (fun c => FileChunk.mk c.filePath c.content c.chunkIndex
                ((chunkLoop p (l1 :: rest2) l0 0 []).1.length + 1))) =
            (chunkLoop p (l1 :: rest2) l0 0 []).1.map (fun c => c.chunkIndex) ++
              [(chunkLoop p (l1 :: rest2) l0 0 []).2.2] := by
          simp
        rw [this, hidx.1, hidx.2]
        simp [List.range_succ]

/-- On oversized content whose first line is empty, the chunker drops the
empty first line: the loop's JS-truthiness test never joins it. -/
theorem chunkContent_leading_empty (p : String) (l : List Char) (hnl : '\n' ∉ l)
    (hlen1 : maxChunkSize < l.length + 1) (hl : l ≠ []) :
    chunkContent p ('\n' :: l) = [⟨p, l, 0, 1⟩] := by
  have hsplit : splitOnChar '\n' ('\n' :: l) = [[], l] := by
    rw [splitOnChar_sep_cons, splitOnChar_noSep _ _ hnl]
  have hloop : chunkLoop p [[], l] [] 0 [] = ([], l, 0) := by
    simp [chunkLoop, maxChunkSize]
  have hE : l.isEmpty = false := by simpa using hl
  rw [chunkContent, if_neg (by rw [List.length_cons]; exact not_le.mpr hlen1),
    hsplit, hloop]
  simp [hE]

/-- C3 counterexample: the document `"\n" ++ 8000 × 'a'` exceeds `maxChunkSize`
(length 8001) yet chunking yields a single chunk, and rejoining the chunk
contents does not reconstruct the source — the leading empty line is dropped. -/
theorem chunkContent_large_claim_false :
    maxChunkSize < ('\n' :: List.replicate 8000 'a').length ∧
    (chunkContent "f" ('\n' :: List.replicate 8000 'a')).length = 1 ∧
    joinLines ((chunkContent "f" ('\n' :: List.replicate 8000 'a')).map
        (fun c => c.content)) ≠ '\n' :: List.replicate 8000 'a' := by
  have hcc : chunkContent "f" ('\n' :: List.replicate 8000 'a') =
      [⟨"f", List.replicate 8000 'a', 0, 1⟩] := by
    refine chunkContent_leading_empty "f" _ ?_ ?_ ?_
    · intro hm
      exact absurd (List.eq_of_mem_replicate hm) (by decide)
    · rw [List.length_replicate]
      decide
    · intro hx
      have := congrArg List.length hx
      rw [List.length_replicate, List.length_nil] at this
      exact absurd this (by decide)
  refine ⟨by rw [List.length_cons, List.length_replicate]; decide, ?_, ?_⟩
  · rw [hcc]
    rfl
  · rw [hcc]
    intro h
    have hL := congrArg List.length h
    simp only [List.map_cons, List.map_nil, joinLines, List.length_cons,
      List.length_replicate] at hL
    omega

/-- Witness for `chunkContent_large` at a concrete 10001-character,
two-line document. -/
theorem chunkContent_large_witness :
    maxChunkSize < (List.replicate 5000 'a' ++ '\n' :: List.replicate 5000 'b').length ∧
    (∀ l ∈ splitOnChar '\n' (List.replicate 5000 'a' ++ '\n' :: List.replicate 5000 'b'),
      l ≠ []) ∧
    2 ≤ (splitOnChar '\n' (List.replicate 5000 'a' ++ '\n' :: List.replicate 5000 'b')).length ∧
    joinLines ((chunkContent "f"
        (List.replicate 5000 'a' ++ '\n' :: List.replicate 5000 'b')).map
        (fun c => c.content)) =
      List.replicate 5000 'a' ++ '\n' :: List.replicate 5000 'b' := by
  have hsplitW : splitOnChar '\n' (List.replicate 5000 'a' ++ '\n' :: List.replicate 5000 'b') =
      [List.replicate 5000 'a', List.replicate 5000 'b'] := by
    rw [splitOnChar_append_sep, splitOnChar_noSep]
    · intro hm
      exact absurd (List.eq_of_mem_replicate hm) (by decide)
    · intro hm
      exact absurd (List.eq_of_mem_replicate hm) (by decide)
  have h1 : maxChunkSize <
      (List.replicate 5000 'a' ++ '\n' :: List.replicate 5000 'b').length := by
    rw [List.length_append, List.length_cons, List.length_replicate, List.length_replicate]
    decide
  have hne : ∀ l ∈ splitOnChar '\n'
      (List.replicate 5000 'a' ++ '\n' :: List.replicate 5000 'b'), l ≠ [] := by
    rw [hsplitW]
    intro l hl
    have hrep : ∀ n : Nat, n ≠ 0 → ∀ c : Char, List.replicate n c ≠ [] := by
      intro n hn c hx
      have := congrArg List.length hx
      rw [List.length_replicate, List.length_nil] at this
      exact hn this
    rcases List.mem_cons.mp hl with h | hl2
    · exact h ▸ hrep 5000 (by decide) 'a'
    · rw [List.mem_singleton.mp hl2]
      exact hrep 5000 (by decide) 'b'
  have h2 : 2 ≤ (splitOnChar '\n'
      (List.replicate 5000 'a' ++ '\n' :: List.replicate 5000 'b')).length := by
    rw [hsplitW, List.length_cons, List.length_cons, List.length_nil]
  exact ⟨h1, hne, h2, (chunkContent_large "f" _ h1 hne h2).2.1⟩

/-! ## State-store theorems -/

/-- C5 counterexample: with `maxEntries = 1` and two stored identities the cap
is exceeded, the claim says `floor(1 * 0.8) = 0` entries are retained, but
`slice(-0)` is `slice(0)` and the code keeps both entries. -/
theorem cleanup_small_cap_keeps_all :
    1 < (AppState.mk none ["a", "b"] []).processedTasks.length ∧
    keepCount 1 = 0 ∧
    (cleanupState 0 1 (AppState.mk none ["a", "b"] [])).1.processedTasks = ["a", "b"] := by
  decide

/-- C5 (amended): for `maxEntries ≥ 2` (so that `floor(maxEntries * 0.8) ≥ 1`,
avoiding the `slice(-0)` quirk), a state holding more than `maxEntries`
identities is trimmed by `cleanup` to exactly `floor(maxEntries * 0.8)`
identities, namely the most recently inserted ones in insertion order (the
suffix of the insertion-ordered list); a state holding at most `maxEntries`
identities keeps its identity set unchanged. -/
theorem cleanup_trims (nowMs m : Nat) (s : AppState) (hm : 2 ≤ m) :
    (m < s.processedTasks.length →
      (cleanupState nowMs m s).1.processedTasks =
        s.processedTasks.drop (s.processedTasks.length - keepCount m) ∧
      (cleanupState nowMs m s).1.processedTasks.length = keepCount m) ∧
    (s.processedTasks.length ≤ m →
      (cleanupState nowMs m s).1.processedTasks = s.processedTasks) := by
  have hkeep1 : 1 ≤ keepCount m := by
    rw [keepCount]
    exact (Nat.le_div_iff_mul_le (by norm_num)).mpr (by omega)
  have hkeep2 : keepCount m ≤ m := by
    rw [keepCount]
    calc m * 4 / 5 ≤ m * 4 / 4 := Nat.div_le_div_left (by norm_num) (by norm_num)
      _ = m := Nat.mul_div_cancel _ (by norm_num)
  constructor
  · intro hgt
    have hc : decide (m < s.processedTasks.length) = true := by simpa using hgt
    simp only [cleanupState, hc, eq_self_iff_true, if_true, jsSliceLast]
    rw [if_neg (Nat.one_le_iff_ne_zero.mp hkeep1)]
    refine ⟨rfl, ?_⟩
    rw [List.length_drop]
    omega
  · intro hle
    have hc : decide (m < s.processedTasks.length) = false := by
      simpa using not_lt.mpr hle
    simp only [cleanupState, hc, Bool.false_eq_true, if_false]

/-- Witness for `cleanup_trims`: three identities, cap 2, keeps the last one. -/
theorem cleanup_trims_witness :
    2 ≤ 2 ∧ 2 < (AppState.mk none ["a", "b", "c"] []).processedTasks.length ∧
    (cleanupState 0 2 (AppState.mk none ["a", "b", "c"] [])).1.processedTasks =
      (AppState.mk none ["a", "b", "c"] []).processedTasks.drop
        ((AppState.mk none ["a", "b", "c"] []).processedTasks.length - keepCount 2) :=
  ⟨by decide, by decide,
    ((cleanup_trims 0 2 (AppState.mk none ["a", "b", "c"] []) (by decide)).1 (by decide)).1⟩

/-- C7: loading a missing or malformed ledger file falls back to the empty
default state without raising: `getLastRun` is null, the processed-identity
count is 0 and the watermark map is empty. -/
theorem loadState_resilient :
    loadState .missing = emptyState ∧ loadState .malformed = emptyState ∧
    getLastRun (loadState .missing) = none ∧
    getProcessedTaskCount (loadState .missing) = 0 ∧
    (loadState .missing).lastModifiedTimes = [] ∧
    getLastRun (loadState .malformed) = none ∧
    getProcessedTaskCount (loadState .malformed) = 0 ∧
    (loadState .malformed).lastModifiedTimes = [] := by
  decide

/-- C4: `generateTaskHash` is a function of the trimmed, lowercased title (with
the resolved path and ordinal), so titles equal after trim + lowercase hash
identically; and it is deterministic — its value depends on nothing besides
its arguments, so two calls with identical inputs agree. -/
theorem generateTaskHash_normalized (cwd filePath : String) (i : Nat)
    (t1 t2 : ExtractedTask)
    (h : jsToLower (jsTrim t1.title) = jsToLower (jsTrim t2.title)) :
    generateTaskHash cwd t1 filePath i = generateTaskHash cwd t2 filePath i ∧
    generateTaskHash cwd t1 filePath i = generateTaskHash cwd t1 filePath i := by
  refine ⟨?_, rfl⟩
  simp only [generateTaskHash, hashInput, h]

/-- Witness for `generateTaskHash_normalized`: `" Buy Milk "` and `"buy milk"`
hash identically. -/
theorem generateTaskHash_normalized_witness :
    jsToLower (jsTrim " Buy Milk ") = jsToLower (jsTrim "buy milk") ∧
    generateTaskHash "/" ⟨" Buy Milk ", none, none⟩ "/inbox/a.md" 0 =
      generateTaskHash "/" ⟨"buy milk", none, none⟩ "/inbox/a.md" 0 :=
  ⟨by decide,
    (generateTaskHash_normalized "/" "/inbox/a.md" 0 ⟨" Buy Milk ", none, none⟩
      ⟨"buy milk", none, none⟩ (by decide)).1⟩

/-! ## Sync-client theorems -/

/-- C2: with the store reporting the hash absent on the first call (and the
create succeeding) and present on the second call, the second `createTask`
returns `success = true` with the `"existing"` sentinel id/url, sends only
the existence query, and the two calls together issue exactly one create
request. -/
theorem createTask_idempotent (store1 store2 : StoreOracle) (db pid purl : String)
    (task : TaskWithMeta) (rs : List String)
    (h1 : store1.queryOutcome db task.hash = .ok [])
    (h2 : store1.createOutcome db task = .ok (pid, purl))
    (h3 : store2.queryOutcome db task.hash = .ok rs)
    (h4 : rs ≠ []) :
    (createTask store2 db task).1 = ⟨true, some "existing", some "existing", none⟩ ∧
    (createTask store2 db task).2 = [.query db task.hash] ∧
    countCreates ((createTask store1 db task).2 ++ (createTask store2 db task).2) = 1 := by
  have he2 : taskExists store2 db task.hash = true := by
    simp only [taskExists, h3]
    simpa using h4
  have he1 : taskExists store1 db task.hash = false := by
    simp [taskExists, h1]
  refine ⟨?_, ?_, ?_⟩
  · simp [createTask, he2]
  · simp [createTask, he2]
  · simp [createTask, he1, he2, h2, countCreates]

/-- Witness for `createTask_idempotent` with concrete oracles: the first call's
store finds nothing and creates; the second call's store reports one result. -/
theorem createTask_idempotent_witness :
    (StoreOracle.mk (fun _ _ => .ok []) (fun _ _ => .ok ("pid", "purl"))).queryOutcome
        "db" "h1" = .ok [] ∧
    (StoreOracle.mk (fun _ _ => .ok ["page1"]) (fun _ _ => .ok ("p2", "u2"))).queryOutcome
        "db" "h1" = .ok ["page1"] ∧
    (createTask (StoreOracle.mk (fun _ _ => .ok ["page1"]) (fun _ _ => .ok ("p2", "u2")))
        "db" ⟨"t", none, none, "h1", "/f.md", 0, "now"⟩).1 =
      ⟨true, some "existing", some "existing", none⟩ :=
  ⟨rfl, rfl,
    (createTask_idempotent
      (StoreOracle.mk (fun _ _ => .ok []) (fun _ _ => .ok ("pid", "purl")))
      (StoreOracle.mk (fun _ _ => .ok ["page1"]) (fun _ _ => .ok ("p2", "u2")))
      "db" "pid" "purl" ⟨"t", none, none, "h1", "/f.md", 0, "now"⟩ ["page1"]
      rfl rfl rfl (by decide)).1⟩

/-- C10: when the existence query errors, `taskExists` swallows the error and
returns `false`, so `createTask` treats the record as absent and issues the
create request — succeeding (a potential duplicate) rather than failing. -/
theorem taskExists_error_creates (store : StoreOracle) (db e pid purl : String)
    (task : TaskWithMeta)
    (hq : store.queryOutcome db task.hash = .error e)
    (hc : store.createOutcome db task = .ok (pid, purl)) :
    taskExists store db task.hash = false ∧
    (createTask store db task).1.success = true ∧
    (createTask store db task).1.pageId = some pid ∧
    NotionRequest.createPage db task ∈ (createTask store db task).2 := by
  have he : taskExists store db task.hash = false := by
    simp [taskExists, hq]
  refine ⟨he, ?_, ?_, ?_⟩ <;> simp [createTask, he, hc]

/-- Witness for `taskExists_error_creates` with a concrete failing oracle. -/
theorem taskExists_error_creates_witness :
    (StoreOracle.mk (fun _ _ => .error "Notion API error: boom")
        (fun _ _ => .ok ("pid", "purl"))).queryOutcome "db" "h1" =
      .error "Notion API error: boom" ∧
    taskExists (StoreOracle.mk (fun _ _ => .error "Notion API error: boom")
        (fun _ _ => .ok ("pid", "purl"))) "db" "h1" = false :=
  ⟨rfl,
    (taskExists_error_creates
      (StoreOracle.mk (fun _ _ => .error "Notion API error: boom")
        (fun _ _ => .ok ("pid", "purl")))
      "db" "Notion API error: boom" "pid" "purl"
      ⟨"t", none, none, "h1", "/f.md", 0, "now"⟩ rfl rfl).1⟩

/-- C6: `callNotion`'s retry policy.  A 429 response is retried up to 3 times
with `2 ^ attempt` seconds of backoff before each retry (so `k ≤ 3` leading
429s followed by a success return the success after `k + 1` fetch calls —
in particular one retry for a single 429 — and four straight 429s give up
with an error after exactly 4 calls and 3 backoffs); a 5xx response is
retried up to 2 times with linear `attempt * 2` seconds of backoff (so
`k ≤ 2` leading 5xx followed by a success return the success after `k + 1`
calls, and three straight 5xx give up after exactly 3 calls and 2 backoffs).
No more fetch calls are made than attempts consumed. -/
theorem callNotion_retry_policy (r429 rOk r5 : HttpResponse)
    (h1 : r429.ok = false) (h2 : r429.status = 429)
    (h3 : rOk.ok = true)
    (h4 : r5.ok = false) (h5 : 500 ≤ r5.status) (h6 : r5.status ≠ 429) :
    (∀ k, k ≤ 3 →
      callNotion (List.replicate k r429 ++ [rOk]) 1 =
        (.ok rOk.okBody, k + 1, (List.range k).map fun i => 2 ^ (i + 1) * 1000)) ∧
    (∀ k, k ≤ 2 →
      callNotion (List.replicate k r5 ++ [rOk]) 1 =
        (.ok rOk.okBody, k + 1, (List.range k).map fun i => (i + 1) * 2000)) ∧
    (∀ rest, callNotion (List.replicate 4 r429 ++ rest) 1 =
      (.error ("Notion API error: " ++ errorMessage r429), 4, [2000, 4000, 8000])) ∧
    (∀ rest, callNotion (List.replicate 3 r5 ++ rest) 1 =
      (.error ("Notion API error: " ++ errorMessage r5), 3, [2000, 4000])) := by
  refine ⟨?_, ?_, ?_, ?_⟩
  · intro k hk
    interval_cases k <;>
      simp [callNotion, h1, h2, h3, List.range_succ]
  · intro k hk
    interval_cases k <;>
      simp [callNotion, h4, h5, h6, h3, List.range_succ]
  · intro rest
    simp [callNotion, h1, h2]
  · intro rest
    simp [callNotion, h4, h5, h6]

/-- Witness for `callNotion_retry_policy`: a concrete 429 followed by a
success returns the success after exactly one retry and two fetch calls. -/
theorem callNotion_retry_policy_witness :
    callNotion [HttpResponse.mk false 429 (some "Rate limited") "" "",
        HttpResponse.mk true 200 none "" "page"] 1 =
      (.ok "page", 2, [2000]) := by
  have h := (callNotion_retry_policy
    (HttpResponse.mk false 429 (some "Rate limited") "" "")
    (HttpResponse.mk true 200 none "" "page")
    (HttpResponse.mk false 503 none "oops" "")
    rfl rfl rfl rfl (by decide) (by decide)).1 1 (by decide)
  simpa using h

/-! ## Orchestrator theorems -/

theorem mem_addToSet (l : List String) (x h : String) :
    h ∈ addToSet l x ↔ h ∈ l ∨ h = x := by
  by_cases hx : x ∈ l
  · rw [addToSet, if_pos hx]
    exact ⟨Or.inl, fun h' => h'.elim id (fun he => he ▸ hx)⟩
  · rw [addToSet, if_neg hx]
    simp

theorem markSyncedLoop_calls (pairs : List (TaskWithMeta × NotionSyncResult)) :
    ∀ s, (markSyncedLoop s pairs).2 =
      pairs.filterMap (fun tr => if tr.2.success then some tr.1.hash else none) := by
  induction pairs with
  | nil => intro s; rfl
  | cons tr rest ih =>
    intro s
    obtain ⟨t, r⟩ := tr
    cases hr : r.success
    · simp [markSyncedLoop, hr, ih]
    · simp [markSyncedLoop, hr, ih]

theorem markSyncedLoop_mem (pairs : List (TaskWithMeta × NotionSyncResult)) :
    ∀ s hsh, hsh ∈ (markSyncedLoop s pairs).1.processedTasks ↔
      hsh ∈ s.processedTasks ∨ ∃ tr ∈ pairs, tr.2.success = true ∧ tr.1.hash = hsh := by
  induction pairs with
  | nil => intro s hsh; simp [markSyncedLoop]
  | cons tr rest ih =>
    intro s hsh
    obtain ⟨t, r⟩ := tr
    cases hr : r.success
    · simp only [markSyncedLoop, hr, Bool.false_eq_true, if_false, ih]
      simp [hr]
    · simp only [markSyncedLoop, hr, eq_self_iff_true, if_true, ih, markTaskProcessed,
        mem_addToSet]
      constructor
      · rintro ((h | h) | ⟨tr, htr, hs, hh⟩)
        · exact Or.inl h
        · exact Or.inr ⟨(t, r), List.mem_cons_self _ _, hr, h.symm⟩
        · exact Or.inr ⟨tr, List.mem_cons_of_mem _ htr, hs, hh⟩
      · rintro (h | ⟨tr, htr, hs, hh⟩)
        · exact Or.inl (Or.inl h)
        · rcases List.mem_cons.mp htr with he | hm
          · subst he
            exact Or.inl (Or.inr hh.symm)
          · exact Or.inr ⟨tr, hm, hs, hh⟩

/-- C8: in the orchestrator's marking loop over position-wise task/result
pairs, `markTaskProcessed` is called exactly for the hashes of items whose
sync result has `success = true` (in order, one call per successful item),
and a hash ends up in `processedTasks` iff it was already there or belongs
to a successful item.  The length hypothesis is the regime in which the
runner's parallel indexing (`allTasks[i]`/`syncResults[i]`) is total, which
always holds because `syncTasks` returns one result per task. -/
theorem markSynced_iff_success (s : AppState) (tasks : List TaskWithMeta)
    (results : List NotionSyncResult) (hlen : tasks.length = results.length) :
    (markSynced s tasks results).2 =
      (tasks.zip results).filterMap
        (fun tr => if tr.2.success then some tr.1.hash else none) ∧
    ∀ h, h ∈ (markSynced s tasks results).1.processedTasks ↔
      h ∈ s.processedTasks ∨
        ∃ tr ∈ tasks.zip results, tr.2.success = true ∧ tr.1.hash = h :=
  ⟨markSyncedLoop_calls (tasks.zip results) s,
    fun h => markSyncedLoop_mem (tasks.zip results) s h⟩

/-- Witness for `markSynced_iff_success`: two forwarded items, the first
synced successfully and the second failed; only the first hash is marked. -/
theorem markSynced_iff_success_witness :
    ([⟨"T1", none, none, "h1", "/f.md", 0, "t"⟩,
      ⟨"T2", none, none, "h2", "/f.md", 1, "t"⟩] : List TaskWithMeta).length =
      ([⟨true, some "p", some "u", none⟩,
        ⟨false, none, none, some "err"⟩] : List NotionSyncResult).length ∧
    (markSynced emptyState
      [⟨"T1", none, none, "h1", "/f.md", 0, "t"⟩,
       ⟨"T2", none, none, "h2", "/f.md", 1, "t"⟩]
      [⟨true, some "p", some "u", none⟩,
       ⟨false, none, none, some "err"⟩]).2 = ["h1"] := by
  refine ⟨rfl, ?_⟩
  have h := (markSynced_iff_success emptyState
    [⟨"T1", none, none, "h1", "/f.md", 0, "t"⟩,
     ⟨"T2", none, none, "h2", "/f.md", 1, "t"⟩]
    [⟨true, some "p", some "u", none⟩,
     ⟨false, none, none, some "err"⟩] rfl).1
  rw [h]
  rfl

/-! ## Crash-safety of file watermarks (C1) -/

theorem applyRunAction_disk (w : World) (a : RunAction) (h : writesDisk a = false) :
    (applyRunAction w a).disk = w.disk := by
  cases a <;> simp_all [applyRunAction, writesDisk]

theorem runWorld_disk (acts : List RunAction) :
    ∀ w : World, (∀ a ∈ acts, writesDisk a = false) → (runWorld w acts).disk = w.disk := by
  induction acts with
  | nil => intro w _; rfl
  | cons a rest ih =>
    intro w h
    show (runWorld (applyRunAction w a) rest).disk = w.disk
    rw [ih (applyRunAction w a) (fun b hb => h b (List.mem_cons_of_mem _ hb))]
    exact applyRunAction_disk w a (h a (List.mem_cons_self _ _))

theorem ingest_no_disk (files : List FileContent) :
    ∀ a ∈ ingestRunActions files, writesDisk a = false := by
  intro a ha
  simp only [ingestRunActions, List.mem_flatMap] at ha
  obtain ⟨f, _, ha⟩ := ha
  rcases List.mem_append.mp ha with h | h
  · obtain ⟨c, _, hc⟩ := List.mem_map.mp h
    rw [← hc]
    rfl
  · rw [List.mem_singleton.mp h]
    rfl

theorem allChunks_ne (files : List FileContent) (hne : files ≠ [])
    (hch : ∀ f ∈ files, chunkContent f.filePath f.content ≠ []) :
    (allChunks files).isEmpty = false := by
  cases files with
  | nil => exact absurd rfl hne
  | cons f rest =>
    have h1 : chunkContent f.filePath f.content ≠ [] := hch f (List.mem_cons_self _ _)
    rw [List.isEmpty_eq_false]
    intro hx
    simp only [allChunks, List.flatMap_cons] at hx
    exact h1 (List.append_eq_nil.mp hx).1

theorem hourly_trace_split (files : List FileContent) (newTasks : List (String × Bool))
    (nowIso : String) (nowMs : Nat) (h : (allChunks files).isEmpty = false) :
    hourlyRunActions files newTasks nowIso nowMs =
      ingestRunActions files ++ RunAction.extract ::
        (if newTasks.isEmpty then [RunAction.updateLastRun nowIso]
         else RunAction.sync ::
           ((newTasks.filterMap fun tr =>
               if tr.2 then some (RunAction.mark tr.1) else none) ++
             [RunAction.cleanup nowMs, RunAction.updateLastRun nowIso])) := by
  rw [hourlyRunActions, if_neg (by rw [h]; exact Bool.false_ne_true)]

theorem ingest_handoff_before (files : List FileContent)
    (hch : ∀ f ∈ files, chunkContent f.filePath f.content ≠ []) :
    ∀ k p m, RunAction.updWatermark p m ∈ (ingestRunActions files).take k →
      ∃ c, RunAction.handOff c ∈ (ingestRunActions files).take k ∧ c.filePath = p := by
  induction files with
  | nil => intro k p m hmem; simp [ingestRunActions] at hmem
  | cons f rest ih =>
    intro k p m hmem
    have hchf : chunkContent f.filePath f.content ≠ [] := hch f (List.mem_cons_self _ _)
    have hchr : ∀ g ∈ rest, chunkContent g.filePath g.content ≠ [] :=
      fun g hg => hch g (List.mem_cons_of_mem _ hg)
    have hsplit : ingestRunActions (f :: rest) =
        ((chunkContent f.filePath f.content).map RunAction.handOff ++
          [RunAction.updWatermark f.filePath f.modifiedTime]) ++ ingestRunActions rest := by
      simp [ingestRunActions]
    rw [hsplit, List.take_append_eq_append_take] at hmem ⊢
    rcases List.mem_append.mp hmem with hL | hR
    · rw [List.take_append_eq_append_take] at hL
      rcases List.mem_append.mp hL with hLL | hLR
      · exfalso
        have hmemA := List.take_subset _ _ hLL
        obtain ⟨c, _, hc⟩ := List.mem_map.mp hmemA
        exact RunAction.noConfusion hc
      · have hk : 1 ≤ k - ((chunkContent f.filePath f.content).map RunAction.handOff).length := by
          by_contra hk0
          have h0 : k - ((chunkContent f.filePath f.content).map RunAction.handOff).length = 0 := by
            omega
          rw [h0] at hLR
          simp at hLR
        have hu : RunAction.updWatermark p m =
            RunAction.updWatermark f.filePath f.modifiedTime := by
          simpa using List.take_subset _ _ hLR
        have hp : p = f.filePath := by
          injection hu
        obtain ⟨c0, hc0⟩ : ∃ c0, c0 ∈ chunkContent f.filePath f.content :=
          List.exists_mem_of_ne_nil _ hchf
        have hlenk : ((chunkContent f.filePath f.content).map RunAction.handOff).length ≤ k := by
          omega
        refine ⟨c0, ?_, ?_⟩
        · apply List.mem_append_left
          rw [List.take_append_eq_append_take, List.take_of_length_le hlenk]
          exact List.mem_append_left _ (List.mem_map_of_mem _ hc0)
        · rw [hp]
          exact chunkContent_paths f.filePath f.content c0 hc0
    · obtain ⟨c, hc, hcp⟩ := ih hchr _ p m hR
      exact ⟨c, List.mem_append_right _ hc, hcp⟩

/-- C1 (amended): in an hourly run over modified files that each chunk to at
least one chunk, (i) the extraction call sits in the trace right after
ingestion, (ii) a file's watermark is advanced (even in memory) only after
some chunk of that file has been handed off towards extraction, and (iii) a
crash at any point up to and including the extraction call leaves the
persisted ledger untouched, so a restarted process reloads a state in which
every one of the files is still reported modified — eligible for
reprocessing.  The zero-chunk proviso is necessary: a file whose oversized
content is all newlines chunks to nothing, yet its watermark is advanced and
persisted without any hand-off (see `watermark_advanced_without_handoff`). -/
theorem watermark_crash_safe (w : World) (files : List FileContent)
    (newTasks : List (String × Bool)) (nowIso : String) (nowMs : Nat)
    (hload : w.mem = loadState w.disk)
    (hfiles : files ≠ [])
    (hch : ∀ f ∈ files, chunkContent f.filePath f.content ≠ [])
    (hmod : ∀ f ∈ files, isFileModified w.mem f.filePath (some f.modifiedTime) = true) :
    (hourlyRunActions files newTasks nowIso nowMs)[(ingestRunActions files).length]? =
      some RunAction.extract ∧
    (∀ k p m, RunAction.updWatermark p m ∈
        (hourlyRunActions files newTasks nowIso nowMs).take k →
      ∃ c, RunAction.handOff c ∈ (hourlyRunActions files newTasks nowIso nowMs).take k ∧
        c.filePath = p) ∧
    (∀ k, k ≤ (ingestRunActions files).length + 1 →
      (runWorld w ((hourlyRunActions files newTasks nowIso nowMs).take k)).disk = w.disk) ∧
    (∀ k, k ≤ (ingestRunActions files).length + 1 → ∀ f ∈ files,
      isFileModified
        (loadState (runWorld w ((hourlyRunActions files newTasks nowIso nowMs).take k)).disk)
        f.filePath (some f.modifiedTime) = true) := by
  have hified := allChunks_ne files hfiles hch
  have hsplit := hourly_trace_split files newTasks nowIso nowMs hified
  set T : List RunAction := (if newTasks.isEmpty then [RunAction.updateLastRun nowIso]
    else RunAction.sync :: ((newTasks.filterMap fun tr =>
      if tr.2 then some (RunAction.mark tr.1) else none) ++
      [RunAction.cleanup nowMs, RunAction.updateLastRun nowIso])) with hTdef
  have hTno : ∀ a ∈ RunAction.extract :: T, ∀ p' m', a ≠ RunAction.updWatermark p' m' := by
    intro a ha p' m' hEq
    rcases List.mem_cons.mp ha with h | h
    · rw [h] at hEq
      exact RunAction.noConfusion hEq
    · rw [hTdef] at h
      split at h
      · rw [List.mem_singleton.mp h] at hEq
        exact RunAction.noConfusion hEq
      · rcases List.mem_cons.mp h with h2 | h2
        · rw [h2] at hEq
          exact RunAction.noConfusion hEq
        · rcases List.mem_append.mp h2 with h3 | h3
          · obtain ⟨tr, _, htr⟩ := List.mem_filterMap.mp h3
            by_cases hb : tr.2 = true
            · rw [if_pos hb] at htr
              injection htr with htr
              rw [← htr] at hEq
              exact RunAction.noConfusion hEq
            · rw [if_neg hb] at htr
              exact Option.noConfusion htr
          · have h4 : a = RunAction.cleanup nowMs ∨ a = RunAction.updateLastRun nowIso := by
              simpa using h3
            rcases h4 with h4 | h4 <;> rw [h4] at hEq <;> exact RunAction.noConfusion hEq
  have hdisk : ∀ k, k ≤ (ingestRunActions files).length + 1 →
      (runWorld w ((hourlyRunActions files newTasks nowIso nowMs).take k)).disk = w.disk := by
    intro k hk
    rw [hsplit]
    apply runWorld_disk
    intro a ha
    rw [List.take_append_eq_append_take] at ha
    rcases List.mem_append.mp ha with h | h
    · exact ingest_no_disk files a (List.take_subset _ _ h)
    · have h1 : k - (ingestRunActions files).length ≤ 1 := by omega
      rcases Nat.le_one_iff_eq_zero_or_eq_one.mp h1 with h0 | h0 <;> rw [h0] at h
      · simp at h
      · have h2 : a = RunAction.extract := by simpa using h
        rw [h2]
        rfl
  refine ⟨?_, ?_, hdisk, ?_⟩
  · rw [hsplit, List.getElem?_append_right (le_refl _)]
    simp
  · intro k p m hmem
    rw [hsplit, List.take_append_eq_append_take] at hmem
    rcases List.mem_append.mp hmem with hL | hR
    · obtain ⟨c, hc, hcp⟩ := ingest_handoff_before files hch k p m hL
      refine ⟨c, ?_, hcp⟩
      rw [hsplit, List.take_append_eq_append_take]
      exact List.mem_append_left _ hc
    · exact absurd rfl (hTno _ (List.take_subset _ _ hR) p m)
  · intro k hk f hf
    rw [hdisk k hk, ← hload]
    exact hmod f hf

/-- C1 counterexample: a run over a single modified file of 8001 newline
characters (oversized, so it is chunked — to zero chunks).  The trace contains
no hand-off and no extraction call at all, yet it ends with the watermark
advanced in the persisted ledger, and a restarted process no longer reports
the file as modified: it was made ineligible for reprocessing although its
content was never handed off for extraction. -/
theorem watermark_advanced_without_handoff :
    (∀ c, RunAction.handOff c ∉
      hourlyRunActions [⟨"/inbox/a.md", List.replicate 8001 '\n', 5⟩] []
        "2026-01-01T00:00:00.000Z" 0) ∧
    RunAction.extract ∉
      hourlyRunActions [⟨"/inbox/a.md", List.replicate 8001 '\n', 5⟩] []
        "2026-01-01T00:00:00.000Z" 0 ∧
    lookupAssoc (loadState (runWorld (World.mk (loadState .missing) .missing)
        (hourlyRunActions [⟨"/inbox/a.md", List.replicate 8001 '\n', 5⟩] []
          "2026-01-01T00:00:00.000Z" 0)).disk).lastModifiedTimes "/inbox/a.md" =
      some 5 ∧
    isFileModified (loadState (runWorld (World.mk (loadState .missing) .missing)
        (hourlyRunActions [⟨"/inbox/a.md", List.replicate 8001 '\n', 5⟩] []
          "2026-01-01T00:00:00.000Z" 0)).disk) "/inbox/a.md" (some 5) = false := by
  have htrace : hourlyRunActions [⟨"/inbox/a.md", List.replicate 8001 '\n', 5⟩] []
      "2026-01-01T00:00:00.000Z" 0 =
      [RunAction.updWatermark "/inbox/a.md" 5,
        RunAction.updateLastRun "2026-01-01T00:00:00.000Z"] := by
    rw [hourlyRunActions]
    simp only [ingestRunActions, allChunks, List.flatMap_cons, List.flatMap_nil,
      chunkContent_all_newlines, List.map_nil, List.nil_append, List.append_nil,
      List.isEmpty_nil, if_true]
    rfl
  rw [htrace]
  refine ⟨?_, ?_, ?_, ?_⟩
  · intro c hc
    simp at hc
  · intro hc
    simp at hc
  · decide
  · decide

/-- Witness for `watermark_crash_safe`: one small modified file against an
empty ledger; a crash right after the extraction call leaves the ledger file
untouched. -/
theorem watermark_crash_safe_witness :
    (World.mk (loadState .missing) .missing).mem =
      loadState (World.mk (loadState .missing) .missing).disk ∧
    ([⟨"/inbox/b.md", ['h', 'i'], 7⟩] : List FileContent) ≠ [] ∧
    (∀ f ∈ ([⟨"/inbox/b.md", ['h', 'i'], 7⟩] : List FileContent),
      chunkContent f.filePath f.content ≠ []) ∧
    (∀ f ∈ ([⟨"/inbox/b.md", ['h', 'i'], 7⟩] : List FileContent),
      isFileModified (World.mk (loadState .missing) .missing).mem f.filePath
        (some f.modifiedTime) = true) ∧
    (runWorld (World.mk (loadState .missing) .missing)
        ((hourlyRunActions [⟨"/inbox/b.md", ['h', 'i'], 7⟩] []
            "2026-01-01T00:00:00.000Z" 0).take
          ((ingestRunActions [⟨"/inbox/b.md", ['h', 'i'], 7⟩]).length + 1))).disk =
      (World.mk (loadState .missing) .missing).disk := by
  have hch : ∀ f ∈ ([⟨"/inbox/b.md", ['h', 'i'], 7⟩] : List FileContent),
      chunkContent f.filePath f.content ≠ [] := by
    intro f hf
    rw [List.mem_singleton.mp hf]
    rw [chunkContent_small _ _ (by decide)]
    decide
  refine ⟨rfl, by decide, hch, by decide, ?_⟩
  exact (watermark_crash_safe (World.mk (loadState .missing) .missing)
    [⟨"/inbox/b.md", ['h', 'i'], 7⟩] [] "2026-01-01T00:00:00.000Z" 0
    rfl (by decide) hch (by decide)).2.2.1 _ (le_refl _)
